import Mathlib

/-!
# correlationOfTwoFiles: sample loader, cross-correlation engine, peak extractor

A shallow embedding of `src/crosscorrelationapp.cpp`.

Modelling conventions.

* A `std::complex<float>` sample is a Gaussian integer: the loader only ever
  builds samples from 16-bit integers. Sums and products of samples are exact
  (unrounded); `star` is `std::conj`. The single-precision accumulator of the
  source holds the same values for as long as every product and partial sum
  stays below `2^24` in each component.
* The peak search compares the single-precision values that `std::abs` returns.
  `float_abs` models them: the modulus rounded to the nearest number with a
  24-bit significand, ties to even.
* C++ `int` and `size_t` quantities are mathematical integers; the lengths in
  scope are assumed to fit their machine types. The one place where a wrapped
  intermediate value occurs on ordinary runs, the mixed-sign subtraction in
  `find_peak_shift_and_phase`, is modelled with its explicit wrap-around.
* `std::vector::operator[]` outside the vector and integer division by zero are
  undefined behaviour; the embedding returns `none` there, so `some r` means
  "the call ran to completion with every access inside its vector".
* The workers write pairwise different cells of `result` and read nothing that
  another worker writes, so running them one after the other in spawn order
  yields the buffer that the joined threads leave behind.
* Console output (progress, diagnostics) is not modelled.
-/

set_option maxRecDepth 8192

namespace CrossCorrelation

/-- A complex sample in exact arithmetic. -/
abbrev Sample := GaussianInt

/-! ## Control flow and element access -/

/-- The loop `for (int i = a; ...; ++i) s = body(i, s)` run for `n` iterations
starting at counter value `i`; it stops with `none` as soon as the body does. -/
def forLoopAux {σ : Type} (body : Int → σ → Option σ) : Nat → Int → σ → Option σ
  | 0, _, s => some s
  | n + 1, i, s => (body i s).bind (fun s' => forLoopAux body n (i + 1) s')

/-- The loop `for (int i = start; i < stop; ++i) s = body(i, s)`: it runs
`stop - start` times when `start < stop` and not at all otherwise. -/
def forLoop {σ : Type} (start stop : Int) (body : Int → σ → Option σ) (s : σ) : Option σ :=
  forLoopAux body (stop - start).toNat start s

/-- Reading `v[i]` with an `int` index: `none` outside `0 .. v.size()-1`. -/
def vec_at {α : Type} (v : List α) (i : Int) : Option α :=
  if 0 ≤ i then v[i.toNat]? else none

/-- Writing `v[i] = a` with an `int` index: `none` outside `0 .. v.size()-1`. -/
def vec_set {α : Type} (v : List α) (i : Int) (a : α) : Option (List α) :=
  if 0 ≤ i ∧ i < (v.length : Int) then some (v.set i.toNat a) else none

/-! ## Correlation engine -/

/-- The accumulation of one lag, lines 67-80 of `crosscorrelation_thread`:
`sum` starts at zero and collects `x[i] * conj(y[i + lag])` for
`0 <= i < total_size - lag` when `lag >= 0`, and `x[i - lag] * conj(y[i])`
for `0 <= i < total_size + lag` otherwise. The accumulation is exact; the
source rounds each product and each partial sum to single precision. -/
def lag_sum (x y : List Sample) (total_size lag : Int) : Option Sample :=
  if lag ≥ 0 then
    forLoop 0 (total_size - lag)
      (fun i sum => (vec_at x i).bind (fun a => (vec_at y (i + lag)).bind (fun b =>
        some (sum + a * star b)))) 0
  else
    forLoop 0 (total_size + lag)
      (fun i sum => (vec_at x (i - lag)).bind (fun a => (vec_at y i).bind (fun b =>
        some (sum + a * star b)))) 0

/-- The worker `crosscorrelation_thread(x, y, result, start, end, total_size)`:
for every lag in `[start, end)` it stores the lag's sum at
`result[lag + total_size - 1]`. -/
def crosscorrelation_thread (x y : List Sample) (result : List Sample)
    (start end_ total_size : Int) : Option (List Sample) :=
  forLoop start end_
    (fun lag result => (lag_sum x y total_size lag).bind (fun sum =>
      vec_set result (lag + total_size - 1) sum)) result

/-- The lag range `[start, end)` handed to worker `t`, lines 102-103 of
`calculate_crosscorrelation`. -/
def worker_range (total_size part_size num_threads t : Int) : Int × Int :=
  let start := t * part_size - total_size + 1
  let end_ := if t = num_threads - 1 then total_size - 1 else start + part_size
  (start, end_)

/-- The engine `calculate_crosscorrelation(x, y, result, num_threads)`. The
`int` division `full_size / num_threads` truncates towards zero and is
undefined for `num_threads == 0`. -/
def calculate_crosscorrelation (x y : List Sample) (result : List Sample)
    (num_threads : Int) : Option (List Sample) :=
  let total_size : Int := x.length
  let full_size : Int := 2 * total_size - 1
  if num_threads = 0 then none
  else
    let part_size : Int := Int.tdiv full_size num_threads
    forLoop 0 num_threads
      (fun t result =>
        let r := worker_range total_size part_size num_threads t
        crosscorrelation_thread x y result r.1 r.2 total_size) result

/-- The correlation sum of the specification at lag `L`, for `N = |x|`:
`Σ_{i=0}^{N-1-L} x[i] * conj(y[i+L])` when `L >= 0` and
`Σ_{i=0}^{N-1+L} x[i-L] * conj(y[i])` when `L < 0`, in exact arithmetic. -/
def spec_crosscorr (x y : List Sample) (L : Int) : Sample :=
  if L ≥ 0 then
    ((List.range (x.length - L.toNat)).map
      (fun i => x.getD i 0 * star (y.getD (i + L.toNat) 0))).sum
  else
    ((List.range (x.length - (-L).toNat)).map
      (fun i => x.getD (i + (-L).toNat) 0 * star (y.getD i 0))).sum

/-- The workers, among the `T` workers started for sequences of length `N`,
whose lag range `[start, end)` contains the lag of output index `k`. -/
def covering_workers (N T k : Nat) : List Nat :=
  (List.range T).filter (fun t =>
    let r := worker_range N (Int.tdiv (2 * (N : Int) - 1) T) T t
    decide (r.1 ≤ (k : Int) - ((N : Int) - 1) ∧ (k : Int) - ((N : Int) - 1) < r.2))

/-! ## Peak extractor -/

/-- The exact squared modulus `|a|^2`. -/
def abs_sq (a : Sample) : Int := a.re * a.re + a.im * a.im

/-- The energy `Σ |x[i]|^2` of a sequence. -/
def spec_energy (x : List Sample) : Int := (x.map abs_sq).sum

/-- The number of binary digits of `m`, found by halving; `fuel` bounds the
number of halvings. -/
def bit_length_aux : Nat → Nat → Nat
  | 0, _ => 0
  | fuel + 1, m => if m = 0 then 0 else bit_length_aux fuel (m / 2) + 1

/-- The number of binary digits of `n`: `0` for `0`, and `k` when
`2^(k-1) <= n < 2^k`. -/
def bit_length (n : Nat) : Nat := bit_length_aux n n

/-- The digits of the integer square root below `2^b`, highest first: a digit
is set when the square of the enlarged root still fits under `n`. -/
def isqrt_aux (n : Nat) : Nat → Nat → Nat
  | 0, acc => acc
  | b + 1, acc =>
    isqrt_aux n b (if (acc + 2 ^ b) * (acc + 2 ^ b) ≤ n then acc + 2 ^ b else acc)

/-- The integer square root `floor (sqrt n)`. -/
def isqrt (n : Nat) : Nat := isqrt_aux n ((bit_length n + 1) / 2) 0

/-- The square root of `n` rounded to single precision: the nearest number with
a 24-bit significand, ties to the even significand, and `+inf` from `2^128` on.
The value is given in units of `2^-23`, which makes it a natural number: with
`2^e <= sqrt n < 2^(e+1)` and `m` the rounded significand in `[2^23, 2^24]`, it
is `m * 2^e`; `+inf` is `2^151`. Here `s` is the significand rounded down, and
the comparison of `lhs` with `rhs` is that of `sqrt n` with the midpoint
`(s + 1/2) * 2^(e-23)`. -/
def float_sqrt (n : Nat) : Nat :=
  if n = 0 then 0
  else
    let e := (bit_length n - 1) / 2
    let s := isqrt (n * 4 ^ (23 - e) / 4 ^ (e - 23))
    let lhs := n * 4 ^ (24 - e)
    let rhs := (2 * s + 1) ^ 2 * 4 ^ (e - 24)
    let m := if lhs > rhs then s + 1 else if lhs = rhs then (if s % 2 = 0 then s else s + 1) else s
    min (m * 2 ^ e) (2 ^ 151)

/-- Modelled from IEEE 754 single precision: the value of `std::abs(a)` for a
`std::complex<float>`, the library function that line 213 calls and the
repository does not define. It is the modulus `sqrt (re^2 + im^2)` correctly
rounded to single precision, in units of `2^-23`. -/
def float_abs (a : Sample) : Nat := float_sqrt (abs_sq a).toNat

/-- The comparator of the peak search, `std::abs(a) < std::abs(b)`, a
comparison of two single-precision values. -/
def abs_lt (a b : Sample) : Bool := decide (float_abs a < float_abs b)

/-- The scan of `std::max_element` after its first element: `i` is the position
of the element examined next, `best` the position of the largest element so far
and `bv` its value; a later element replaces it only when `comp bv a` holds. -/
def max_element_aux {α : Type} (comp : α → α → Bool) : List α → Nat → Nat → α → Nat
  | [], _, best, _ => best
  | a :: rest, i, best, bv =>
    if comp bv a then max_element_aux comp rest (i + 1) i a
    else max_element_aux comp rest (i + 1) best bv

/-- The position returned by `std::max_element(v.begin(), v.end(), comp)`; on an
empty range it is `v.end()`, position `0`. -/
def max_element {α : Type} (comp : α → α → Bool) : List α → Nat
  | [] => 0
  | a :: rest => max_element_aux comp rest 1 0 a

/-- The conversion of a 64-bit unsigned value to `int` (two's complement
narrowing to 32 bits). -/
def to_int (u : Int) : Int :=
  let m := u % 2 ^ 32
  if m < 2 ^ 31 then m else m - 2 ^ 32

/-- The lambda `find_peak_shift_and_phase(result)`: the returned `shift`,
paired with the peak entry `*max_it` whose argument is the reported phase.
`distance - result.size() / 2` is evaluated in 64-bit unsigned arithmetic and
then stored in an `int`; dereferencing `max_it` on an empty vector is
undefined. -/
def find_peak_shift_and_phase (result : List Sample) : Option (Int × Sample) :=
  let max_it := max_element abs_lt result
  let shift := to_int (((max_it : Int) - ((result.length / 2 : Nat) : Int)) % 2 ^ 64)
  match result[max_it]? with
  | none => none
  | some peak => some (shift, peak)

/-- The engine followed by the peak extractor, as `CrossCorrelationApp::calculate`
chains them on a freshly allocated, zero-filled `result_ch1_ch2` of
`2 * numSamples - 1` entries. -/
def correlate_and_find_peak (x y : List Sample) (num_threads : Int) : Option (Int × Sample) :=
  (calculate_crosscorrelation x y (List.replicate (2 * x.length - 1) 0) num_threads).bind
    find_peak_shift_and_phase

/-- The unit impulse of length `n` at position `d`. -/
def impulse (n d : Nat) : List Sample :=
  (List.range n).map (fun i => if i = d then 1 else 0)

/-! ## Sample loader -/

/-- The value of a `short` stored in memory as the bytes `lo`, `hi`
(little-endian host, two's complement). -/
def short_of_bytes (lo hi : Nat) : Int :=
  let u := lo + 256 * hi
  if u < 32768 then (u : Int) else (u : Int) - 65536

/-- The call `file.read(buf, n)` at stream position `pos`: the bytes left in the
file from `pos` on, at most `n` of them, overwrite the front of `buf`; the rest
of `buf` keeps its content. -/
def stream_read (file : List Nat) (pos n : Nat) (buf : List Nat) : List Nat :=
  let got := (file.drop pos).take n
  got ++ buf.drop got.length

/-- The loader `read_iq_samples(filename, iq_samples, start_sample, num_samples)`.
`file` is the byte content of the named file, `none` when it cannot be opened;
the value is `iq_samples` on return. The function has no failure exit: it
returns `void` and throws nothing. For `num_samples = 0` the address of
`short_samples.front()` is formed but no byte is read through it. -/
def read_iq_samples (file : Option (List Nat)) (iq_samples : List Sample)
    (start_sample num_samples : Nat) : List Sample :=
  match file with
  | none => iq_samples
  | some bytes =>
    let buf := stream_read bytes (start_sample * 4) (num_samples * 4)
      (List.replicate (num_samples * 4) 0)
    let short_samples : List Int := (List.range (num_samples * 2)).map
      (fun j => short_of_bytes (buf.getD (2 * j) 0) (buf.getD (2 * j + 1) 0))
    (List.range num_samples).map
      (fun i => (⟨short_samples.getD (2 * i) 0, short_samples.getD (2 * i + 1) 0⟩ : Sample))

/-- A value of a 16-bit signed integer. -/
def is_int16 (v : Int) : Prop := -32768 ≤ v ∧ v ≤ 32767

instance (v : Int) : Decidable (is_int16 v) := by unfold is_int16; infer_instance

/-- The two bytes of a 16-bit signed integer in the file format: little-endian,
two's complement. -/
def le16 (v : Int) : List Nat :=
  let u := (v % 65536).toNat
  [u % 256, u / 256]

/-- The file that holds the given `(I, Q)` pairs: `I` then `Q`, four bytes per
pair, no header. -/
def write_iq : List (Int × Int) → List Nat
  | [] => []
  | p :: ps => le16 p.1 ++ le16 p.2 ++ write_iq ps

/-- The complex sample with real part `I` and imaginary part `Q`. -/
def sample_of (p : Int × Int) : Sample := ⟨p.1, p.2⟩

/-! ## Loop rule -/

theorem forLoopAux_inv {σ : Type} (body : Int → σ → Option σ) (Inv : Int → σ → Prop)
    (n : Nat) (i0 : Int) (s0 : σ) (h0 : Inv i0 s0)
    (hstep : ∀ i s, i0 ≤ i → i < i0 + n → Inv i s → ∃ s', body i s = some s' ∧ Inv (i + 1) s') :
    ∃ s', forLoopAux body n i0 s0 = some s' ∧ Inv (i0 + n) s' := by
  induction n generalizing i0 s0 with
  | zero => exact ⟨s0, rfl, by simpa using h0⟩
  | succ n ih =>
    obtain ⟨s1, hb, h1⟩ := hstep i0 s0 (le_refl _) (by push_cast; omega) h0
    obtain ⟨s2, hl, h2⟩ := ih (i0 + 1) s1 h1
      (fun i s hi hlt hinv => hstep i s (by omega) (by push_cast; omega) hinv)
    refine ⟨s2, ?_, ?_⟩
    · simp [forLoopAux, hb, hl]
    · have e : i0 + ((n + 1 : Nat) : Int) = i0 + 1 + (n : Int) := by push_cast; ring
      rw [e]; exact h2

theorem forLoop_inv {σ : Type} (body : Int → σ → Option σ) (Inv : Int → σ → Prop)
    (start stop : Int) (s0 : σ) (hle : start ≤ stop) (h0 : Inv start s0)
    (hstep : ∀ i s, start ≤ i → i < stop → Inv i s → ∃ s', body i s = some s' ∧ Inv (i + 1) s') :
    ∃ s', forLoop start stop body s0 = some s' ∧ Inv stop s' := by
  have e : start + (((stop - start).toNat : Nat) : Int) = stop := by
    rw [Int.toNat_of_nonneg (by omega)]; ring
  obtain ⟨s', h1, h2⟩ := forLoopAux_inv body Inv (stop - start).toNat start s0 h0
    (fun i s hi hlt hinv => hstep i s hi (by omega) hinv)
  exact ⟨s', h1, by rw [e] at h2; exact h2⟩

theorem forLoop_empty {σ : Type} (body : Int → σ → Option σ) (start stop : Int) (s0 : σ)
    (h : stop ≤ start) : forLoop start stop body s0 = some s0 := by
  have e : (stop - start).toNat = 0 := by omega
  simp [forLoop, e, forLoopAux]

theorem vec_at_nat {α : Type} (v : List α) (i : Int) (h0 : 0 ≤ i) (h1 : i < v.length) (d : α) :
    vec_at v i = some (v.getD i.toNat d) := by
  have hlt : i.toNat < v.length := by omega
  simp [vec_at, h0, List.getD, List.getElem?_eq_getElem hlt]

theorem sum_range_succ_map (f : Nat → Sample) (n : Nat) :
    ((List.range (n + 1)).map f).sum = ((List.range n).map f).sum + f n := by
  simp [List.range_succ]

/-- The accumulation loop of a lag in `[-(N-1), N]` reads inside `x` and `y`
and ends with the correlation sum of the specification. -/
theorem lag_sum_eq (x y : List Sample) (lag : Int) (hxy : x.length ≤ y.length)
    (h1 : -((x.length : Int) - 1) ≤ lag) (h2 : lag ≤ (x.length : Int)) :
    lag_sum x y x.length lag = some (spec_crosscorr x y lag) := by
  unfold lag_sum spec_crosscorr
  by_cases hl : lag ≥ 0
  · simp only [hl, if_true]
    obtain ⟨s, hs, hinv⟩ := forLoop_inv
      (fun i sum => (vec_at x i).bind (fun a => (vec_at y (i + lag)).bind (fun b =>
        some (sum + a * star b))))
      (fun i s => s = ((List.range i.toNat).map
        (fun i => x.getD i 0 * star (y.getD (i + lag.toNat) 0))).sum)
      0 ((x.length : Int) - lag) 0 (by omega) (by simp)
      (by
        intro i s hi0 hi1 hinv
        refine ⟨s + x.getD i.toNat 0 * star (y.getD (i.toNat + lag.toNat) 0), ?_, ?_⟩
        · beta_reduce
          rw [vec_at_nat x i hi0 (by omega) 0, vec_at_nat y (i + lag) (by omega) (by omega) 0]
          have e : (i + lag).toNat = i.toNat + lag.toNat := by omega
          simp [e]
        · have e : (i + 1).toNat = i.toNat + 1 := by omega
          beta_reduce
          rw [e, sum_range_succ_map, hinv])
    rw [hs, hinv]
    have e : ((x.length : Int) - lag).toNat = x.length - lag.toNat := by omega
    rw [e]
  · simp only [hl, if_false]
    obtain ⟨s, hs, hinv⟩ := forLoop_inv
      (fun i sum => (vec_at x (i - lag)).bind (fun a => (vec_at y i).bind (fun b =>
        some (sum + a * star b))))
      (fun i s => s = ((List.range i.toNat).map
        (fun i => x.getD (i + (-lag).toNat) 0 * star (y.getD i 0))).sum)
      0 ((x.length : Int) + lag) 0 (by omega) (by simp)
      (by
        intro i s hi0 hi1 hinv
        refine ⟨s + x.getD (i.toNat + (-lag).toNat) 0 * star (y.getD i.toNat 0), ?_, ?_⟩
        · beta_reduce
          rw [vec_at_nat x (i - lag) (by omega) (by omega) 0, vec_at_nat y i hi0 (by omega) 0]
          have e : (i - lag).toNat = i.toNat + (-lag).toNat := by omega
          simp [e]
        · have e : (i + 1).toNat = i.toNat + 1 := by omega
          beta_reduce
          rw [e, sum_range_succ_map, hinv])
    rw [hs, hinv]
    have e : ((x.length : Int) + lag).toNat = x.length - (-lag).toNat := by omega
    rw [e]

/-- A worker whose lag range lies in `[-(N-1), N]` completes; it overwrites
exactly the cells of its lags, each with the correlation sum of that lag. -/
theorem thread_spec (x y r : List Sample) (start stop : Int) (hxy : x.length ≤ y.length)
    (hr : (r.length : Int) = 2 * (x.length : Int) - 1)
    (h1 : -((x.length : Int) - 1) ≤ start) (h2 : stop ≤ (x.length : Int)) (hle : start ≤ stop) :
    ∃ r', crosscorrelation_thread x y r start stop x.length = some r' ∧ r'.length = r.length ∧
      ∀ k : Nat, r'[k]? =
        if start ≤ (k : Int) - ((x.length : Int) - 1) ∧ (k : Int) - ((x.length : Int) - 1) < stop
        then some (spec_crosscorr x y ((k : Int) - ((x.length : Int) - 1))) else r[k]? := by
  unfold crosscorrelation_thread
  obtain ⟨r', hrun, hlen, hval⟩ := forLoop_inv
    (fun lag result => (lag_sum x y x.length lag).bind (fun sum =>
      vec_set result (lag + (x.length : Int) - 1) sum))
    (fun lag r' => r'.length = r.length ∧ ∀ k : Nat, r'[k]? =
        if start ≤ (k : Int) - ((x.length : Int) - 1) ∧ (k : Int) - ((x.length : Int) - 1) < lag
        then some (spec_crosscorr x y ((k : Int) - ((x.length : Int) - 1))) else r[k]?)
    start stop r hle
    ⟨rfl, fun k => by
      have : ¬ (start ≤ (k : Int) - ((x.length : Int) - 1) ∧
          (k : Int) - ((x.length : Int) - 1) < start) := by omega
      simp [this]⟩
    (by
      intro lag r' hl1 hl2 hinv
      obtain ⟨hlen, hval⟩ := hinv
      beta_reduce
      rw [lag_sum_eq x y lag hxy (by omega) (by omega)]
      have hidx : 0 ≤ lag + (x.length : Int) - 1 ∧ lag + (x.length : Int) - 1 < (r'.length : Int) := by
        rw [hlen]; omega
      refine ⟨r'.set (lag + (x.length : Int) - 1).toNat (spec_crosscorr x y lag), ?_, ?_, ?_⟩
      · simp [vec_set, hidx]
      · simp [hlen]
      · intro k
        rw [List.getElem?_set]
        by_cases hk : (lag + (x.length : Int) - 1).toNat = k
        · subst hk
          have e : (((lag + (x.length : Int) - 1).toNat : Nat) : Int) - ((x.length : Int) - 1)
              = lag := by omega
          have hlt : (lag + (x.length : Int) - 1).toNat < r'.length := by omega
          have c : start ≤ lag ∧ lag < lag + 1 := by omega
          simp only [e, c, hlt, if_true, and_self]
        · have c : ((start ≤ (k : Int) - ((x.length : Int) - 1) ∧
              (k : Int) - ((x.length : Int) - 1) < lag + 1) ↔
              (start ≤ (k : Int) - ((x.length : Int) - 1) ∧
              (k : Int) - ((x.length : Int) - 1) < lag)) := by omega
          simp only [hk, if_false, c]
          exact hval k)
  exact ⟨r', hrun, hlen, hval⟩

/-- The engine on `N = |x| >= 1`, `|y| >= N`, a buffer of `2N-1` cells and at
least one worker completes; it overwrites the cells `0 .. 2N-3` with the
correlation sums of the lags `-(N-1) .. N-2` and leaves cell `2N-2` as it was. -/
theorem calculate_spec (x y r : List Sample) (T : Int) (hN : 1 ≤ x.length)
    (hxy : x.length ≤ y.length) (hr : (r.length : Int) = 2 * (x.length : Int) - 1)
    (hT : 1 ≤ T) :
    ∃ r', calculate_crosscorrelation x y r T = some r' ∧ r'.length = r.length ∧
      ∀ k : Nat, r'[k]? =
        if (k : Int) - ((x.length : Int) - 1) < (x.length : Int) - 1
        then some (spec_crosscorr x y ((k : Int) - ((x.length : Int) - 1))) else r[k]? := by
  have hT0 : T ≠ 0 := by omega
  have hfull : (0 : Int) ≤ 2 * (x.length : Int) - 1 := by omega
  have hp0 : 0 ≤ Int.tdiv (2 * (x.length : Int) - 1) T := Int.tdiv_nonneg hfull (by omega)
  have hpT : Int.tdiv (2 * (x.length : Int) - 1) T * T ≤ 2 * (x.length : Int) - 1 := by
    rw [Int.tdiv_eq_ediv hfull (by omega)]; exact Int.ediv_mul_le _ hT0
  unfold calculate_crosscorrelation
  simp only [hT0, if_false]
  generalize Int.tdiv (2 * (x.length : Int) - 1) T = p at hp0 hpT
  obtain ⟨r', hrun, hlen, hval⟩ := forLoop_inv
    (fun t result => crosscorrelation_thread x y result
      (worker_range x.length p T t).1 (worker_range x.length p T t).2 x.length)
    (fun t r' => r'.length = r.length ∧ ∀ k : Nat, r'[k]? =
        if (k : Int) - ((x.length : Int) - 1) <
          (if t = T then (x.length : Int) - 1 else t * p - (x.length : Int) + 1)
        then some (spec_crosscorr x y ((k : Int) - ((x.length : Int) - 1))) else r[k]?)
    0 T r (by omega)
    ⟨rfl, fun k => by
      have h0 : ¬ ((0 : Int) = T) := by omega
      have : ¬ ((k : Int) - ((x.length : Int) - 1) < 0 * p - (x.length : Int) + 1) := by omega
      simp only [h0, if_false, this]⟩
    (by
      intro t r' ht0 ht1 hinv
      obtain ⟨hlen, hval⟩ := hinv
      have htT : ¬ (t = T) := by omega
      simp only [htT, if_false] at hval
      have ha0 : 0 ≤ t * p := mul_nonneg ht0 hp0
      have hap : t * p + p ≤ 2 * (x.length : Int) - 1 := by
        have h1 : (t + 1) * p ≤ T * p := mul_le_mul_of_nonneg_right (by omega) hp0
        have h2 : (t + 1) * p = t * p + p := by ring
        have h3 : T * p = p * T := by ring
        omega
      have hlast : t * p ≤ 2 * (x.length : Int) - 2 := by
        rcases lt_or_ge 0 p with hpos | hz
        · omega
        · have : p = 0 := by omega
          subst this; simp; omega
      have hsucc : (t + 1) * p = t * p + p := by ring
      have hr' : (r'.length : Int) = 2 * (x.length : Int) - 1 := by rw [hlen]; exact hr
      beta_reduce
      unfold worker_range
      simp only
      generalize t * p = a at ha0 hap hlast hsucc hval ⊢
      by_cases hlastT : t = T - 1
      · have e1 : t + 1 = T := by omega
        simp only [hlastT, if_true]
        rw [← hlastT]
        obtain ⟨r2, hrun, hlen2, hval2⟩ := thread_spec x y r' (a - (x.length : Int) + 1)
          ((x.length : Int) - 1) hxy hr' (by omega) (by omega) (by omega)
        refine ⟨r2, ?_, by rw [hlen2, hlen], ?_⟩
        · exact hrun
        · intro k
          rw [hval2 k, hval k]
          simp only [e1, if_true]
          split_ifs <;> first | rfl | omega
      · have e1 : ¬ (t + 1 = T) := by omega
        simp only [hlastT, if_false]
        obtain ⟨r2, hrun, hlen2, hval2⟩ := thread_spec x y r' (a - (x.length : Int) + 1)
          (a - (x.length : Int) + 1 + p) hxy hr' (by omega) (by omega) (by omega)
        refine ⟨r2, ?_, by rw [hlen2, hlen], ?_⟩
        · exact hrun
        · intro k
          rw [hval2 k, hval k]
          simp only [e1, if_false, hsucc]
          split_ifs <;> first | rfl | omega)
  refine ⟨r', hrun, hlen, ?_⟩
  intro k
  rw [hval k]
  simp

/-- The lag range of every worker lies inside `[-(N-1), N]` and is not reversed. -/
theorem worker_range_bounds (N p T t : Int) (hN : 1 ≤ N) (hp0 : 0 ≤ p) (hpT : p * T ≤ 2 * N - 1)
    (ht0 : 0 ≤ t) (ht1 : t < T) :
    -(N - 1) ≤ (worker_range N p T t).1 ∧ (worker_range N p T t).1 ≤ (worker_range N p T t).2 ∧
      (worker_range N p T t).2 ≤ N - 1 + (if t = T - 1 then 0 else 1) := by
  have ha0 : 0 ≤ t * p := mul_nonneg ht0 hp0
  have hap : t * p + p ≤ 2 * N - 1 := by
    have h1 : (t + 1) * p ≤ T * p := mul_le_mul_of_nonneg_right (by omega) hp0
    have h2 : (t + 1) * p = t * p + p := by ring
    have h3 : T * p = p * T := by ring
    omega
  have hlast : t * p ≤ 2 * N - 2 := by
    rcases lt_or_ge 0 p with hpos | hz
    · omega
    · have : p = 0 := by omega
      subst this; simp; omega
  unfold worker_range
  simp only
  generalize t * p = a at ha0 hap hlast ⊢
  split_ifs <;> omega

theorem tdiv_facts (N : Nat) (T : Int) (hN : 1 ≤ N) (hT : 1 ≤ T) :
    0 ≤ Int.tdiv (2 * (N : Int) - 1) T ∧ Int.tdiv (2 * (N : Int) - 1) T * T ≤ 2 * (N : Int) - 1 := by
  have hfull : (0 : Int) ≤ 2 * (N : Int) - 1 := by omega
  refine ⟨Int.tdiv_nonneg hfull (by omega), ?_⟩
  rw [Int.tdiv_eq_ediv hfull (by omega)]
  exact Int.ediv_mul_le _ (by omega)

/-- Every lag that is computed holds the sum of the specification, and the
cell of lag `N-1` is never written: for `N >= 1`, `|x| = |y| = N`, a buffer of
`2N-1` cells and at least one worker, the call completes, the cell of every lag
`L` with `-(N-1) <= L <= N-2` ends as the correlation sum at `L`, and the last
cell ends as it started. -/
theorem engine_entries (N : Nat) (x y r : List Sample) (T : Int)
    (hN : 1 ≤ N) (hx : x.length = N) (hy : y.length = N) (hr : r.length = 2 * N - 1)
    (hT : 1 ≤ T) :
    ∃ r', calculate_crosscorrelation x y r T = some r' ∧ r'.length = 2 * N - 1 ∧
      (∀ L : Int, -((N : Int) - 1) ≤ L → L ≤ (N : Int) - 2 →
        r'[(L + (N : Int) - 1).toNat]? = some (spec_crosscorr x y L)) ∧
      r'[2 * N - 2]? = r[2 * N - 2]? := by
  subst hx
  obtain ⟨r', h1, hl, hv⟩ := calculate_spec x y r T hN (by omega) (by omega) hT
  refine ⟨r', h1, by rw [hl, hr], ?_, ?_⟩
  · intro L hL1 hL2
    rw [hv]
    have e : (((L + (x.length : Int) - 1).toNat : Nat) : Int) - ((x.length : Int) - 1) = L := by
      omega
    rw [e, if_pos (by omega)]
  · rw [hv, if_neg (by omega)]

/-- The lag ranges of two different workers do not meet. -/
theorem worker_ranges_disjoint (N p T t t' lag : Int) (hp0 : 0 ≤ p)
    (htt : t < t') (ht1 : t' < T)
    (h1 : (worker_range N p T t).1 ≤ lag ∧ lag < (worker_range N p T t).2) :
    ¬ ((worker_range N p T t').1 ≤ lag ∧ lag < (worker_range N p T t').2) := by
  have hne : ¬ (t = T - 1) := by omega
  have hmono : (t + 1) * p ≤ t' * p := mul_le_mul_of_nonneg_right (by omega) hp0
  have hsucc : (t + 1) * p = t * p + p := by ring
  unfold worker_range at h1 ⊢
  simp only [hne, if_false] at h1
  simp only
  generalize t * p = a at h1 hsucc
  generalize t' * p = b at hmono
  omega

/-- Every lag in `[-(N-1), N-2]` lies in the range of some worker. -/
theorem worker_ranges_cover (N p T lag : Int) (hp0 : 0 ≤ p) (hT : 1 ≤ T) (hl1 : -(N - 1) ≤ lag) (hl2 : lag ≤ N - 2) :
    ∃ t, 0 ≤ t ∧ t < T ∧ (worker_range N p T t).1 ≤ lag ∧ lag < (worker_range N p T t).2 := by
  rcases eq_or_lt_of_le hp0 with hz | hpos
  · refine ⟨T - 1, by omega, by omega, ?_⟩
    unfold worker_range
    simp only [if_true, ← hz, mul_zero]
    omega
  · have hq0 : 0 ≤ (lag + N - 1) / p := Int.ediv_nonneg (by omega) hp0
    have hq1 : (lag + N - 1) / p * p ≤ lag + N - 1 := Int.ediv_mul_le _ (by omega)
    have hq2 : lag + N - 1 < (lag + N - 1) / p * p + p := by
      have := Int.lt_ediv_add_one_mul_self (lag + N - 1) hpos
      have e : ((lag + N - 1) / p + 1) * p = (lag + N - 1) / p * p + p := by ring
      omega
    generalize (lag + N - 1) / p = q at hq0 hq1 hq2
    by_cases hq : q < T - 1
    · refine ⟨q, hq0, by omega, ?_⟩
      unfold worker_range
      have hne : ¬ (q = T - 1) := by omega
      simp only [hne, if_false]
      omega
    · refine ⟨T - 1, by omega, by omega, ?_⟩
      have hmono : (T - 1) * p ≤ q * p := mul_le_mul_of_nonneg_right (by omega) hp0
      unfold worker_range
      simp only [if_true]
      generalize (T - 1) * p = a at hmono
      omega

/-- No worker is handed the lag `N-1`. -/
theorem last_lag_in_no_range (N p T t : Int) (hN : 1 ≤ N) (hp0 : 0 ≤ p)
    (hpT : p * T ≤ 2 * N - 1) (ht0 : 0 ≤ t) (ht1 : t < T) :
    ¬ ((worker_range N p T t).1 ≤ N - 1 ∧ N - 1 < (worker_range N p T t).2) := by
  obtain ⟨_, _, b3⟩ := worker_range_bounds N p T t hN hp0 hpT ht0 ht1
  by_cases hlast : t = T - 1
  · simp only [hlast, if_true] at b3
    rw [hlast]
    omega
  · have h1 : (t + 2) * p ≤ T * p := mul_le_mul_of_nonneg_right (by omega) hp0
    have h2 : (t + 2) * p = t * p + p + p := by ring
    have h3 : T * p = p * T := by ring
    unfold worker_range
    simp only [hlast, if_false]
    generalize t * p = a at h1 h2
    intro hc
    have : p = 0 ∨ 1 ≤ p := by omega
    rcases this with hz | hpos
    · subst hz; omega
    · omega

/-! ## Single-precision modulus -/

theorem bit_length_aux_spec (fuel m : Nat) (h : m ≤ fuel) (hm : 0 < m) :
    2 ^ (bit_length_aux fuel m - 1) ≤ m ∧ m < 2 ^ bit_length_aux fuel m ∧
      0 < bit_length_aux fuel m := by
  induction fuel generalizing m with
  | zero => omega
  | succ fuel ih =>
    have hne : ¬ (m = 0) := by omega
    simp only [bit_length_aux, hne, if_false, Nat.add_sub_cancel]
    rcases Nat.eq_zero_or_pos (m / 2) with hz | hpos
    · have hm1 : m = 1 := by omega
      rw [hz]
      have : bit_length_aux fuel 0 = 0 := by cases fuel <;> simp [bit_length_aux]
      rw [this, hm1]
      simp
    · obtain ⟨h1, h2, h3⟩ := ih (m / 2) (by omega) hpos
      have e1 : 2 ^ bit_length_aux fuel (m / 2) = 2 * 2 ^ (bit_length_aux fuel (m / 2) - 1) := by
        rw [← pow_succ']
        congr 1
        omega
      refine ⟨by omega, ?_, by omega⟩
      rw [pow_succ]
      omega

/-- For `n > 0` the number of binary digits `k` satisfies `2^(k-1) <= n < 2^k`. -/
theorem bit_length_spec (n : Nat) (hn : 0 < n) :
    2 ^ (bit_length n - 1) ≤ n ∧ n < 2 ^ bit_length n ∧ 0 < bit_length n :=
  bit_length_aux_spec n n (le_refl _) hn

theorem isqrt_aux_spec (n b acc : Nat) (h1 : acc * acc ≤ n)
    (h2 : n < (acc + 2 ^ b) * (acc + 2 ^ b)) :
    isqrt_aux n b acc * isqrt_aux n b acc ≤ n ∧
      n < (isqrt_aux n b acc + 1) * (isqrt_aux n b acc + 1) := by
  induction b generalizing acc with
  | zero => simpa [isqrt_aux] using ⟨h1, h2⟩
  | succ b ih =>
    simp only [isqrt_aux]
    by_cases hc : (acc + 2 ^ b) * (acc + 2 ^ b) ≤ n
    · rw [if_pos hc]
      apply ih _ hc
      have e : acc + 2 ^ b + 2 ^ b = acc + 2 ^ (b + 1) := by rw [pow_succ]; omega
      rw [e]; exact h2
    · rw [if_neg hc]
      exact ih _ h1 (by omega)

/-- The integer square root: `isqrt n ^ 2 <= n < (isqrt n + 1) ^ 2`. -/
theorem isqrt_spec (n : Nat) :
    isqrt n * isqrt n ≤ n ∧ n < (isqrt n + 1) * (isqrt n + 1) := by
  unfold isqrt
  apply isqrt_aux_spec n _ 0 (by simp)
  rcases Nat.eq_zero_or_pos n with hz | hpos
  · subst hz; simp
  · obtain ⟨_, h2, _⟩ := bit_length_spec n hpos
    have hle : 2 ^ bit_length n ≤ 2 ^ ((bit_length n + 1) / 2) * 2 ^ ((bit_length n + 1) / 2) := by
      rw [← pow_add]
      exact Nat.pow_le_pow_right (by omega) (by omega)
    simp only [Nat.zero_add]
    omega

theorem four_pow (k : Nat) : (4 : Nat) ^ k = 2 ^ (2 * k) := by
  rw [pow_mul]; norm_num

theorem sq_lt_sq_nat (a b : Nat) (h : a * a < b * b) : a < b := by
  by_contra hc
  have : b * b ≤ a * a := Nat.mul_le_mul (by omega) (by omega)
  omega

/-- The exponent chosen by `float_sqrt`: `4^e <= n < 4^(e+1)`. -/
theorem float_exponent_spec (n : Nat) (hn : 0 < n) :
    4 ^ ((bit_length n - 1) / 2) ≤ n ∧ n < 4 ^ ((bit_length n - 1) / 2 + 1) := by
  obtain ⟨h1, h2, h3⟩ := bit_length_spec n hn
  rw [four_pow, four_pow]
  constructor
  · exact le_trans (Nat.pow_le_pow_right (by omega) (by omega)) h1
  · exact lt_of_lt_of_le h2 (Nat.pow_le_pow_right (by omega) (by omega))

/-- The significand rounded down: with `4^e <= n < 4^(e+1)` and
`s = isqrt (n * 4^(23-e) / 4^(e-23))`, `s` lies in `[2^23, 2^24)` and
`s * 2^(e-23) <= sqrt n < (s+1) * 2^(e-23)`. -/
theorem float_floor_spec (n e : Nat) (h1 : 4 ^ e ≤ n) (h2 : n < 4 ^ (e + 1)) :
    2 ^ 23 ≤ isqrt (n * 4 ^ (23 - e) / 4 ^ (e - 23)) ∧
    isqrt (n * 4 ^ (23 - e) / 4 ^ (e - 23)) < 2 ^ 24 ∧
    4 * (isqrt (n * 4 ^ (23 - e) / 4 ^ (e - 23)) * isqrt (n * 4 ^ (23 - e) / 4 ^ (e - 23))) *
      4 ^ (e - 24) ≤ n * 4 ^ (24 - e) ∧
    n * 4 ^ (24 - e) < 4 * ((isqrt (n * 4 ^ (23 - e) / 4 ^ (e - 23)) + 1) *
      (isqrt (n * 4 ^ (23 - e) / 4 ^ (e - 23)) + 1)) * 4 ^ (e - 24) := by
  obtain ⟨hs1, hs2⟩ := isqrt_spec (n * 4 ^ (23 - e) / 4 ^ (e - 23))
  generalize isqrt (n * 4 ^ (23 - e) / 4 ^ (e - 23)) = s at hs1 hs2 ⊢
  have hXlo : 4 ^ 23 ≤ n * 4 ^ (23 - e) / 4 ^ (e - 23) := by
    rw [Nat.le_div_iff_mul_le (by positivity)]
    rcases Nat.le_total e 23 with hle | hge
    · have e1 : e - 23 = 0 := by omega
      have e2 : (4 : Nat) ^ 23 = 4 ^ e * 4 ^ (23 - e) := by rw [← pow_add]; congr 1; omega
      rw [e1, pow_zero, mul_one, e2]
      exact Nat.mul_le_mul_right _ h1
    · have e1 : 23 - e = 0 := by omega
      have e2 : (4 : Nat) ^ 23 * 4 ^ (e - 23) = 4 ^ e := by rw [← pow_add]; congr 1; omega
      rw [e1, pow_zero, mul_one, e2]
      exact h1
  have hXhi : n * 4 ^ (23 - e) / 4 ^ (e - 23) < 4 ^ 24 := by
    rw [Nat.div_lt_iff_lt_mul (by positivity)]
    rcases Nat.le_total e 23 with hle | hge
    · have e1 : e - 23 = 0 := by omega
      have e2 : (4 : Nat) ^ 24 = 4 ^ (e + 1) * 4 ^ (23 - e) := by rw [← pow_add]; congr 1; omega
      rw [e1, pow_zero, mul_one, e2]
      exact Nat.mul_lt_mul_of_pos_right h2 (by positivity)
    · have e1 : 23 - e = 0 := by omega
      have e2 : (4 : Nat) ^ 24 * 4 ^ (e - 23) = 4 ^ (e + 1) := by rw [← pow_add]; congr 1; omega
      rw [e1, pow_zero, mul_one, e2]
      exact h2
  refine ⟨?_, ?_, ?_, ?_⟩
  · have h : 2 ^ 23 * 2 ^ 23 < (s + 1) * (s + 1) := by
      have : (4 : Nat) ^ 23 = 2 ^ 23 * 2 ^ 23 := by norm_num
      omega
    have := sq_lt_sq_nat _ _ h
    omega
  · apply sq_lt_sq_nat
    have : (4 : Nat) ^ 24 = 2 ^ 24 * 2 ^ 24 := by norm_num
    omega
  · rcases Nat.le_total e 23 with hle | hge
    · have e1 : e - 23 = 0 := by omega
      have e2 : e - 24 = 0 := by omega
      have e3 : (4 : Nat) ^ (24 - e) = 4 ^ (23 - e) * 4 := by rw [← pow_succ]; congr 1; omega
      rw [e1, pow_zero, Nat.div_one] at hs1
      rw [e2, pow_zero, mul_one, e3]
      calc 4 * (s * s) ≤ 4 * (n * 4 ^ (23 - e)) := Nat.mul_le_mul_left _ hs1
        _ = n * (4 ^ (23 - e) * 4) := by ring
    · have e1 : 23 - e = 0 := by omega
      rcases Nat.eq_or_lt_of_le hge with h23 | h24
      · have e2 : e - 24 = 0 := by omega
        have e3 : 24 - e = 1 := by omega
        have e4 : e - 23 = 0 := by omega
        rw [e1, e4, pow_zero, mul_one, Nat.div_one] at hs1
        rw [e2, e3, pow_zero, pow_one, mul_one]
        omega
      · have e3 : 24 - e = 0 := by omega
        have e4 : (4 : Nat) ^ (e - 23) = 4 ^ (e - 24) * 4 := by rw [← pow_succ]; congr 1; omega
        rw [e1, pow_zero, mul_one, Nat.le_div_iff_mul_le (by positivity), e4] at hs1
        rw [e3, pow_zero, mul_one]
        calc 4 * (s * s) * 4 ^ (e - 24) = s * s * (4 ^ (e - 24) * 4) := by ring
          _ ≤ n := hs1
  · rcases Nat.le_total e 23 with hle | hge
    · have e1 : e - 23 = 0 := by omega
      have e2 : e - 24 = 0 := by omega
      have e3 : (4 : Nat) ^ (24 - e) = 4 ^ (23 - e) * 4 := by rw [← pow_succ]; congr 1; omega
      rw [e1, pow_zero, Nat.div_one] at hs2
      rw [e2, pow_zero, mul_one, e3]
      calc n * (4 ^ (23 - e) * 4) = 4 * (n * 4 ^ (23 - e)) := by ring
        _ < 4 * ((s + 1) * (s + 1)) := Nat.mul_lt_mul_of_pos_left hs2 (by omega)
    · have e1 : 23 - e = 0 := by omega
      rcases Nat.eq_or_lt_of_le hge with h23 | h24
      · have e2 : e - 24 = 0 := by omega
        have e3 : 24 - e = 1 := by omega
        have e4 : e - 23 = 0 := by omega
        rw [e1, e4, pow_zero, mul_one, Nat.div_one] at hs2
        rw [e2, e3, pow_zero, pow_one, mul_one]
        omega
      · have e3 : 24 - e = 0 := by omega
        have e4 : (4 : Nat) ^ (e - 23) = 4 ^ (e - 24) * 4 := by rw [← pow_succ]; congr 1; omega
        rw [e1, pow_zero, mul_one, Nat.div_lt_iff_lt_mul (by positivity), e4] at hs2
        rw [e3, pow_zero, mul_one]
        calc n < (s + 1) * (s + 1) * (4 ^ (e - 24) * 4) := hs2
          _ = 4 * ((s + 1) * (s + 1)) * 4 ^ (e - 24) := by ring

theorem four_sq_le (t : Nat) : 4 * (t * t) ≤ (2 * t + 1) ^ 2 := by
  nlinarith

theorem pred_sq_le (t : Nat) : (2 * t - 1) ^ 2 ≤ 4 * (t * t) := by
  have h : 2 * t - 1 ≤ 2 * t := by omega
  calc (2 * t - 1) ^ 2 ≤ (2 * t) ^ 2 := Nat.pow_le_pow_left h 2
    _ = 4 * (t * t) := by ring

/-- The value of `float_sqrt n` is `m * 2^e` (or `+inf`) for the exponent `e`
with `4^e <= n < 4^(e+1)` and a significand `m` in `[2^23, 2^24]` that is
nearest to `sqrt n`: `(m - 1/2) * 2^(e-23) <= sqrt n <= (m + 1/2) * 2^(e-23)`. -/
theorem float_sqrt_spec (n : Nat) (hn : 0 < n) :
    ∃ e m : Nat, 4 ^ e ≤ n ∧ n < 4 ^ (e + 1) ∧ 2 ^ 23 ≤ m ∧ m ≤ 2 ^ 24 ∧
      float_sqrt n = min (m * 2 ^ e) (2 ^ 151) ∧
      (2 * m - 1) ^ 2 * 4 ^ (e - 24) ≤ n * 4 ^ (24 - e) ∧
      n * 4 ^ (24 - e) ≤ (2 * m + 1) ^ 2 * 4 ^ (e - 24) := by
  obtain ⟨h1, h2⟩ := float_exponent_spec n hn
  obtain ⟨hs1, hs2, k1, k2⟩ := float_floor_spec n _ h1 h2
  have heq : float_sqrt n = min ((if n * 4 ^ (24 - (bit_length n - 1) / 2) >
        (2 * isqrt (n * 4 ^ (23 - (bit_length n - 1) / 2) / 4 ^ ((bit_length n - 1) / 2 - 23))
          + 1) ^ 2 * 4 ^ ((bit_length n - 1) / 2 - 24)
      then isqrt (n * 4 ^ (23 - (bit_length n - 1) / 2) / 4 ^ ((bit_length n - 1) / 2 - 23)) + 1
      else if n * 4 ^ (24 - (bit_length n - 1) / 2) =
        (2 * isqrt (n * 4 ^ (23 - (bit_length n - 1) / 2) / 4 ^ ((bit_length n - 1) / 2 - 23))
          + 1) ^ 2 * 4 ^ ((bit_length n - 1) / 2 - 24)
      then (if isqrt (n * 4 ^ (23 - (bit_length n - 1) / 2) /
          4 ^ ((bit_length n - 1) / 2 - 23)) % 2 = 0
        then isqrt (n * 4 ^ (23 - (bit_length n - 1) / 2) / 4 ^ ((bit_length n - 1) / 2 - 23))
        else isqrt (n * 4 ^ (23 - (bit_length n - 1) / 2) /
          4 ^ ((bit_length n - 1) / 2 - 23)) + 1)
      else isqrt (n * 4 ^ (23 - (bit_length n - 1) / 2) / 4 ^ ((bit_length n - 1) / 2 - 23)))
      * 2 ^ ((bit_length n - 1) / 2)) (2 ^ 151) := by
    unfold float_sqrt
    rw [if_neg (by omega)]
  generalize isqrt (n * 4 ^ (23 - (bit_length n - 1) / 2) / 4 ^ ((bit_length n - 1) / 2 - 23))
    = s at hs1 hs2 k1 k2 heq
  generalize (bit_length n - 1) / 2 = e at h1 h2 k1 k2 heq
  refine ⟨e, _, h1, h2, ?_, ?_, heq, ?_, ?_⟩
  · split_ifs <;> omega
  · split_ifs <;> omega
  · have a1 := Nat.mul_le_mul_right (4 ^ (e - 24)) (pred_sq_le s)
    have a2 : 2 * (s + 1) - 1 = 2 * s + 1 := by omega
    split_ifs with c1 c2 c3
    · rw [a2]; omega
    · exact le_trans a1 k1
    · rw [a2]; omega
    · exact le_trans a1 k1
  · have a1 := Nat.mul_le_mul_right (4 ^ (e - 24)) (four_sq_le (s + 1))
    split_ifs with c1 c2 c3
    · exact le_trans (le_of_lt k2) a1
    · omega
    · exact le_trans (le_of_lt k2) a1
    · omega

/-- Rounding keeps the order: a larger radicand never gets a smaller value. -/
theorem float_sqrt_mono (n n' : Nat) (h : n ≤ n') : float_sqrt n ≤ float_sqrt n' := by
  rcases Nat.eq_zero_or_pos n with hz | hpos
  · subst hz
    simp [float_sqrt]
  rcases Nat.eq_or_lt_of_le h with heq | hlt
  · subst heq; exact le_refl _
  obtain ⟨e, m, h1, h2, hm1, hm2, hval, lo, _⟩ := float_sqrt_spec n hpos
  obtain ⟨e', m', h1', h2', hm1', hm2', hval', _, hi'⟩ := float_sqrt_spec n' (by omega)
  rw [hval, hval']
  apply min_le_min_right
  have hee : e ≤ e' := by
    by_contra hc
    have : (4 : Nat) ^ (e' + 1) ≤ 4 ^ e := Nat.pow_le_pow_right (by omega) (by omega)
    omega
  rcases Nat.eq_or_lt_of_le hee with he | he
  · subst he
    have hV : 0 < (4 : Nat) ^ (24 - e) := by positivity
    have hU : 0 < (4 : Nat) ^ (e - 24) := by positivity
    have hlt2 : n * 4 ^ (24 - e) < n' * 4 ^ (24 - e) := Nat.mul_lt_mul_of_pos_right hlt hV
    have hsq : (2 * m - 1) ^ 2 * 4 ^ (e - 24) < (2 * m' + 1) ^ 2 * 4 ^ (e - 24) := by omega
    have hsq2 : (2 * m - 1) ^ 2 < (2 * m' + 1) ^ 2 := lt_of_mul_lt_mul_right hsq (Nat.zero_le _)
    have hlin : 2 * m - 1 < 2 * m' + 1 := (Nat.pow_lt_pow_iff_left (by omega)).mp hsq2
    exact Nat.mul_le_mul_right _ (by omega)
  · calc m * 2 ^ e ≤ 2 ^ 24 * 2 ^ e := Nat.mul_le_mul_right _ hm2
      _ = 2 ^ 23 * 2 ^ (e + 1) := by rw [pow_succ]; ring
      _ ≤ 2 ^ 23 * 2 ^ e' := Nat.mul_le_mul_left _ (Nat.pow_le_pow_right (by omega) (by omega))
      _ ≤ m' * 2 ^ e' := Nat.mul_le_mul_right _ hm1'

/-- The single-precision modulus keeps the order of the exact modulus. -/
theorem float_abs_mono (a b : Sample) (h : abs_sq a ≤ abs_sq b) :
    float_abs a ≤ float_abs b :=
  float_sqrt_mono _ _ (Int.toNat_le_toNat h)

/-! ## Peak search -/

theorem to_int_wrap (d : Int) (h1 : -2 ^ 31 ≤ d) (h2 : d < 2 ^ 31) :
    to_int (d % 2 ^ 64) = d := by
  unfold to_int
  norm_num at h1 h2 ⊢
  split_ifs <;> omega

/-- The scan keeps the first position of the largest single-precision modulus seen:
`pre` is the part of the vector already examined, `rest` the part to come. -/
theorem max_element_aux_spec (rest pre : List Sample) (best : Nat) (bv : Sample)
    (hb : best < pre.length) (hbv : pre.getD best 0 = bv)
    (hmax : ∀ j, j < pre.length → float_abs (pre.getD j 0) ≤ float_abs bv)
    (hfirst : ∀ j, j < best → float_abs (pre.getD j 0) < float_abs bv) :
    max_element_aux abs_lt rest pre.length best bv < (pre ++ rest).length ∧
    (∀ j, j < (pre ++ rest).length → float_abs ((pre ++ rest).getD j 0) ≤
      float_abs ((pre ++ rest).getD (max_element_aux abs_lt rest pre.length best bv) 0)) ∧
    (∀ j, j < max_element_aux abs_lt rest pre.length best bv →
      float_abs ((pre ++ rest).getD j 0) <
      float_abs ((pre ++ rest).getD (max_element_aux abs_lt rest pre.length best bv) 0)) := by
  induction rest generalizing pre best bv with
  | nil =>
    simp only [max_element_aux, List.append_nil]
    rw [hbv]
    exact ⟨hb, hmax, hfirst⟩
  | cons a rest ih =>
    have hlen : (pre ++ [a]).length = pre.length + 1 := by simp
    have happ : pre ++ a :: rest = (pre ++ [a]) ++ rest := by simp
    have hget : ∀ j, j < pre.length → (pre ++ [a]).getD j 0 = pre.getD j 0 := by
      intro j hj
      simp [List.getD_eq_getElem?_getD, List.getElem?_append_left hj]
    have hgeta : (pre ++ [a]).getD pre.length 0 = a := by
      simp [List.getD_eq_getElem?_getD]
    unfold max_element_aux
    by_cases hc : abs_lt bv a = true
    · simp only [hc, if_true]
      have hlt : float_abs bv < float_abs a := by simpa [abs_lt] using hc
      rw [happ, ← hlen]
      apply ih (pre ++ [a]) pre.length a (by omega) hgeta
      · intro j hj
        rcases Nat.lt_or_ge j pre.length with h | h
        · rw [hget j h]; have := hmax j h; omega
        · have : j = pre.length := by omega
          rw [this, hgeta]
      · intro j hj
        rw [hget j hj]; have := hmax j hj; omega
    · simp only [hc]
      have hge : float_abs a ≤ float_abs bv := by
        have : ¬ (float_abs bv < float_abs a) := by simpa [abs_lt] using hc
        omega
      rw [happ, ← hlen]
      apply ih (pre ++ [a]) best bv (by omega) (by rw [hget best hb]; exact hbv)
      · intro j hj
        rcases Nat.lt_or_ge j pre.length with h | h
        · rw [hget j h]; exact hmax j h
        · have : j = pre.length := by omega
          rw [this, hgeta]; exact hge
      · intro j hj
        rw [hget j (by omega)]; exact hfirst j hj

/-- On a non-empty vector `std::max_element` with the `std::abs` comparator
returns a position inside the vector whose entry is at least as large as every
entry and strictly larger than every earlier entry. -/
theorem max_element_spec (v : List Sample) (hv : v ≠ []) :
    max_element abs_lt v < v.length ∧
    (∀ j, j < v.length → float_abs (v.getD j 0) ≤ float_abs (v.getD (max_element abs_lt v) 0)) ∧
    (∀ j, j < max_element abs_lt v →
      float_abs (v.getD j 0) < float_abs (v.getD (max_element abs_lt v) 0)) := by
  cases v with
  | nil => exact absurd rfl hv
  | cons a rest =>
    have h := max_element_aux_spec rest [a] 0 a (by simp) (by simp)
      (by intro j hj; have : j = 0 := by simpa using hj
          subst this; simp)
      (by intro j hj; omega)
    simpa [max_element] using h

/-- On a non-empty vector whose length fits an `int` the extractor returns the
position found by `std::max_element`, less half the length, and the entry at
that position. -/
theorem find_peak_value (v : List Sample) (hv : v ≠ []) (hlen : v.length < 2 ^ 31) :
    find_peak_shift_and_phase v =
      some (((max_element abs_lt v : Nat) : Int) - ((v.length / 2 : Nat) : Int),
        v.getD (max_element abs_lt v) 0) := by
  obtain ⟨hk, _, _⟩ := max_element_spec v hv
  have hget : v[max_element abs_lt v]? = some (v.getD (max_element abs_lt v) 0) := by
    simp [List.getD_eq_getElem?_getD, List.getElem?_eq_getElem hk]
  unfold find_peak_shift_and_phase
  simp only [hget]
  rw [to_int_wrap _ (by norm_num; omega) (by norm_num at hlen ⊢; omega)]

/-- The selected entry has the largest exact modulus up to rounding: an entry
whose exact modulus is at least that of the selected one has the same
single-precision modulus. -/
theorem peak_exact_up_to_rounding (v : List Sample) (hv : v ≠ []) (j : Nat)
    (hj : j < v.length)
    (h : abs_sq (v.getD (max_element abs_lt v) 0) ≤ abs_sq (v.getD j 0)) :
    float_abs (v.getD j 0) = float_abs (v.getD (max_element abs_lt v) 0) := by
  obtain ⟨_, hmax, _⟩ := max_element_spec v hv
  exact le_antisymm (hmax j hj) (float_abs_mono _ _ h)

/-! ## Loader -/

theorem short_of_le16 (v : Int) (hv : is_int16 v) :
    short_of_bytes ((le16 v).getD 0 0) ((le16 v).getD 1 0) = v := by
  unfold is_int16 at hv
  unfold short_of_bytes le16
  simp only [List.getD_cons_zero, List.getD_cons_succ]
  split_ifs <;> omega

theorem le16_length (v : Int) : (le16 v).length = 2 := rfl

/-- Byte `c` of pair `i` in the written file; beyond the last pair both sides
are zero. -/
theorem write_iq_getD (pairs : List (Int × Int)) (i c : Nat) (hc : c < 4) :
    (write_iq pairs).getD (4 * i + c) 0 =
      (le16 (pairs.getD i (0, 0)).1 ++ le16 (pairs.getD i (0, 0)).2).getD c 0 := by
  induction pairs generalizing i with
  | nil =>
    have : (le16 0 ++ le16 0) = [0, 0, 0, 0] := by decide
    simp only [write_iq, List.getD_nil, this]
    interval_cases c <;> rfl
  | cons p ps ih =>
    cases i with
    | zero =>
      simp only [write_iq, Nat.mul_zero, Nat.zero_add, List.getD_cons_zero]
      have hl : c < (le16 p.1 ++ le16 p.2).length := by simp [le16_length]; omega
      rw [List.getD_eq_getElem?_getD, List.getD_eq_getElem?_getD, List.getElem?_append_left hl]
    | succ i =>
      have e : 4 * (i + 1) + c = (le16 p.1 ++ le16 p.2).length + (4 * i + c) := by
        simp [le16_length]; omega
      simp only [write_iq, List.getD_cons_succ]
      rw [e, List.getD_eq_getElem?_getD, List.getElem?_append_right (by omega)]
      simp only [Nat.add_sub_cancel_left]
      rw [← List.getD_eq_getElem?_getD]
      exact ih i

/-- After `file.read` into a zero-filled buffer of `n` bytes, byte `j` of the
buffer is byte `pos + j` of the file, and zero where the file has ended. -/
theorem stream_read_getD (file : List Nat) (pos n j : Nat) (hj : j < n) :
    (stream_read file pos n (List.replicate n 0)).getD j 0 = file.getD (pos + j) 0 := by
  unfold stream_read
  simp only [List.getD_eq_getElem?_getD]
  by_cases h : j < ((file.drop pos).take n).length
  · rw [List.getElem?_append_left h, List.getElem?_take]
    simp [hj]
  · rw [List.getElem?_append_right (by omega)]
    have hlen : ((file.drop pos).take n).length = min n (file.length - pos) := by simp
    have hbeyond : file.length ≤ pos + j := by omega
    rw [List.getElem?_eq_none hbeyond, List.getElem?_drop, List.getElem?_replicate]
    split_ifs <;> rfl

/-- The loader on a file written from 16-bit pairs: entry `i` is pair
`start_sample + i` of the file, and `(0, 0)` beyond the last pair. -/
theorem read_iq_samples_eq (pairs : List (Int × Int))
    (hp : ∀ p ∈ pairs, is_int16 p.1 ∧ is_int16 p.2) (iq0 : List Sample) (start count : Nat) :
    read_iq_samples (some (write_iq pairs)) iq0 start count =
      (List.range count).map (fun i => sample_of (pairs.getD (start + i) (0, 0))) := by
  unfold read_iq_samples
  simp only
  apply List.map_congr_left
  intro i hi
  have hi' : i < count := List.mem_range.mp hi
  have hp' : is_int16 (pairs.getD (start + i) (0, 0)).1 ∧
      is_int16 (pairs.getD (start + i) (0, 0)).2 := by
    rw [List.getD_eq_getElem?_getD]
    by_cases h : start + i < pairs.length
    · rw [List.getElem?_eq_getElem h]
      exact hp _ (List.getElem_mem h)
    · rw [List.getElem?_eq_none (by omega)]
      exact ⟨by decide, by decide⟩
  have hs : ∀ j, j < count * 2 →
      ((List.range (count * 2)).map (fun j => short_of_bytes
        ((stream_read (write_iq pairs) (start * 4) (count * 4)
          (List.replicate (count * 4) 0)).getD (2 * j) 0)
        ((stream_read (write_iq pairs) (start * 4) (count * 4)
          (List.replicate (count * 4) 0)).getD (2 * j + 1) 0))).getD j 0 =
      short_of_bytes ((write_iq pairs).getD (start * 4 + 2 * j) 0)
        ((write_iq pairs).getD (start * 4 + (2 * j + 1)) 0) := by
    intro j hj
    rw [List.getD_eq_getElem?_getD, List.getElem?_map, List.getElem?_range hj]
    simp only [Option.map_some', Option.getD_some]
    rw [stream_read_getD _ _ _ _ (by omega), stream_read_getD _ _ _ _ (by omega)]
  rw [hs (2 * i) (by omega), hs (2 * i + 1) (by omega)]
  have e0 : start * 4 + 2 * (2 * i) = 4 * (start + i) + 0 := by omega
  have e1 : start * 4 + (2 * (2 * i) + 1) = 4 * (start + i) + 1 := by omega
  have e2 : start * 4 + 2 * (2 * i + 1) = 4 * (start + i) + 2 := by omega
  have e3 : start * 4 + (2 * (2 * i + 1) + 1) = 4 * (start + i) + 3 := by omega
  rw [e0, e1, e2, e3, write_iq_getD _ _ 0 (by omega), write_iq_getD _ _ 1 (by omega),
    write_iq_getD _ _ 2 (by omega), write_iq_getD _ _ 3 (by omega)]
  have a0 : ∀ a b : Int, (le16 a ++ le16 b).getD 0 0 = (le16 a).getD 0 0 := fun _ _ => rfl
  have a1 : ∀ a b : Int, (le16 a ++ le16 b).getD 1 0 = (le16 a).getD 1 0 := fun _ _ => rfl
  have a2 : ∀ a b : Int, (le16 a ++ le16 b).getD 2 0 = (le16 b).getD 0 0 := fun _ _ => rfl
  have a3 : ∀ a b : Int, (le16 a ++ le16 b).getD 3 0 = (le16 b).getD 1 0 := fun _ _ => rfl
  rw [a0, a1, a2, a3, short_of_le16 _ hp'.1, short_of_le16 _ hp'.2]
  rfl

theorem map_getD_range (pairs : List (Int × Int)) (start count : Nat) :
    (List.range count).map (fun i => sample_of (pairs.getD (start + i) (0, 0))) =
      ((pairs.drop start).take count).map sample_of ++
        List.replicate (count - (pairs.length - start)) (sample_of (0, 0)) := by
  apply List.ext_getElem?
  intro k
  by_cases hk : k < count
  · rw [List.getElem?_map, List.getElem?_range hk]
    simp only [Option.map_some']
    by_cases hin : start + k < pairs.length
    · have hl : k < (((pairs.drop start).take count).map sample_of).length := by
        simp; omega
      rw [List.getElem?_append_left hl, List.getElem?_map, List.getElem?_take,
        List.getElem?_drop, List.getD_eq_getElem?_getD, List.getElem?_eq_getElem hin]
      simp [hk]
    · have hl : (((pairs.drop start).take count).map sample_of).length =
          min count (pairs.length - start) := by simp
      rw [List.getElem?_append_right (by omega), List.getElem?_replicate,
        List.getD_eq_getElem?_getD, List.getElem?_eq_none (by omega)]
      have : k - (((pairs.drop start).take count).map sample_of).length <
          count - (pairs.length - start) := by omega
      rw [if_pos this]
      rfl
  · have h1 : ((List.range count).map
        (fun i => sample_of (pairs.getD (start + i) (0, 0)))).length ≤ k := by simp; omega
    have h2 : (((pairs.drop start).take count).map sample_of ++
        List.replicate (count - (pairs.length - start)) (sample_of (0, 0))).length ≤ k := by
      simp; omega
    rw [List.getElem?_eq_none h1, List.getElem?_eq_none h2]

/-- The correlation sums only read the first `|x|` entries of `y`. -/
theorem spec_crosscorr_take (x y : List Sample) (L : Int) :
    spec_crosscorr x (y.take x.length) L = spec_crosscorr x y L := by
  unfold spec_crosscorr
  split_ifs
  · congr 1
    apply List.map_congr_left
    intro i hi
    have hi' := List.mem_range.mp hi
    have : i + L.toNat < x.length := by omega
    simp [List.getD_eq_getElem?_getD, List.getElem?_take, this]
  · congr 1
    apply List.map_congr_left
    intro i hi
    have hi' := List.mem_range.mp hi
    have : i < x.length := by omega
    simp [List.getD_eq_getElem?_getD, List.getElem?_take, this]

/-! ## Pure delay -/

theorem impulse_getD (n d i : Nat) :
    (impulse n d).getD i 0 = if i = d ∧ i < n then 1 else 0 := by
  unfold impulse
  rw [List.getD_eq_getElem?_getD, List.getElem?_map]
  by_cases h : i < n
  · rw [List.getElem?_range h]
    simp only [Option.map_some', Option.getD_some]
    by_cases hd : i = d
    · rw [if_pos hd, if_pos ⟨hd, h⟩]
    · rw [if_neg hd, if_neg (fun hc => hd hc.1)]
  · rw [List.getElem?_eq_none (by simp; omega), if_neg (fun hc => h hc.2)]
    rfl

theorem sum_range_only_zero (f : Nat → Sample) (n : Nat) (hf : ∀ i, 1 ≤ i → f i = 0) :
    ((List.range n).map f).sum = if 0 < n then f 0 else 0 := by
  induction n with
  | zero => simp
  | succ n ih =>
    rw [sum_range_succ_map, ih]
    cases n with
    | zero => simp
    | succ m => simp [hf (m + 1) (by omega)]

/-- The correlation sums of an impulse at `0` against an impulse at `d`: `1` at
lag `d` and `0` at every other lag. -/
theorem spec_crosscorr_impulse (N d : Nat) (hd : d < N) (L : Int) :
    spec_crosscorr (impulse N 0) (impulse N d) L = if L = d then 1 else 0 := by
  have hlen : (impulse N 0).length = N := by simp [impulse]
  unfold spec_crosscorr
  rw [hlen]
  by_cases hL : L ≥ 0
  · simp only [hL, if_true]
    rw [sum_range_only_zero _ _ (by
      intro i hi
      have : ¬ (i = 0 ∧ i < N) := by omega
      rw [impulse_getD, if_neg this, zero_mul])]
    rw [impulse_getD, impulse_getD]
    by_cases hLd : L = d
    · have h1 : 0 < N - L.toNat := by omega
      have h2 : (0 + L.toNat = d ∧ 0 + L.toNat < N) := by omega
      have h3 : ((0 : Nat) = 0 ∧ 0 < N) := by omega
      rw [if_pos h1, if_pos h2, if_pos h3, if_pos hLd, star_one, mul_one]
    · have h2 : ¬ (0 + L.toNat = d ∧ 0 + L.toNat < N) := by omega
      rw [if_neg h2, if_neg hLd, star_zero, mul_zero]
      split_ifs <;> rfl
  · simp only [hL, if_false]
    have hLd : ¬ (L = d) := by omega
    simp only [hLd, if_false]
    apply List.sum_eq_zero
    intro z hz
    obtain ⟨i, _, rfl⟩ := List.mem_map.mp hz
    have : ¬ (i + (-L).toNat = 0 ∧ i + (-L).toNat < N) := by omega
    rw [impulse_getD, if_neg this, zero_mul]

/-- A pure delay short of the last lag is recovered: for `1 <= d <= N-2`, any
number of workers and a zero-filled buffer whose length fits an `int`, the
reported peak entry is `1` and the shift is `+d`. -/
theorem pure_delay_recovered (N d : Nat) (T : Int) (hd1 : 1 ≤ d) (hd2 : d + 2 ≤ N)
    (hT : 1 ≤ T) (hfit : 2 * N - 1 < 2 ^ 31) :
    correlate_and_find_peak (impulse N 0) (impulse N d) T = some ((d : Int), 1) := by
  have hlx : (impulse N 0).length = N := by simp [impulse]
  have hly : (impulse N d).length = N := by simp [impulse]
  obtain ⟨r', hrun, hlen, hv⟩ := calculate_spec (impulse N 0) (impulse N d)
    (List.replicate (2 * (impulse N 0).length - 1) 0) T (by omega) (by omega)
    (by simp; omega) hT
  rw [hlx] at hv hlen
  simp only [List.length_replicate] at hlen
  unfold correlate_and_find_peak
  rw [hrun]
  simp only [Option.some_bind]
  have hne : r' ≠ [] := by
    intro h; rw [h] at hlen; simp at hlen; omega
  have hval : ∀ k : Nat, r'.getD k 0 = if k = d + N - 1 then 1 else 0 := by
    intro k
    rw [List.getD_eq_getElem?_getD, hv k, spec_crosscorr_impulse N d (by omega)]
    by_cases h1 : (k : Int) - ((N : Int) - 1) < (N : Int) - 1
    · rw [if_pos h1]
      by_cases h2 : k = d + N - 1
      · have : (k : Int) - ((N : Int) - 1) = d := by omega
        rw [if_pos this, if_pos h2]; rfl
      · have : ¬ ((k : Int) - ((N : Int) - 1) = d) := by omega
        rw [if_neg this, if_neg h2]; rfl
    · rw [if_neg h1, List.getElem?_replicate]
      have : ¬ (k = d + N - 1) := by omega
      rw [if_neg this]
      split_ifs <;> rfl
  obtain ⟨hk, hmax, _⟩ := max_element_spec r' hne
  have h1 := hmax (d + N - 1) (by omega)
  rw [hval (d + N - 1), if_pos rfl, hval (max_element abs_lt r')] at h1
  have hkd : max_element abs_lt r' = d + N - 1 := by
    by_contra hc
    rw [if_neg hc] at h1
    revert h1
    decide
  rw [find_peak_value r' hne (by rw [hlen]; exact hfit), hval, if_pos hkd, hlen, hkd]
  have : (((d + N - 1 : Nat) : Int) - (((2 * N - 1) / 2 : Nat) : Int)) = (d : Int) := by omega
  rw [this]

/-! ## Self-correlation -/

theorem list_sum_eq_finset {M : Type} [AddCommMonoid M] (f : Nat → M) (n : Nat) :
    ((List.range n).map f).sum = ∑ i in Finset.range n, f i := by
  induction n with
  | zero => simp
  | succ n ih =>
    rw [List.range_succ, List.map_append, List.sum_append, ih, Finset.sum_range_succ]
    simp

theorem norm_sum_mul_conj_le (a b : Nat → ℂ) (n : Nat) :
    ‖∑ i in Finset.range n, a i * (starRingEnd ℂ) (b i)‖ ≤
      (∑ i in Finset.range n, ‖a i‖ ^ 2 + ∑ i in Finset.range n, ‖b i‖ ^ 2) / 2 := by
  calc ‖∑ i in Finset.range n, a i * (starRingEnd ℂ) (b i)‖
      ≤ ∑ i in Finset.range n, ‖a i * (starRingEnd ℂ) (b i)‖ := norm_sum_le _ _
    _ = ∑ i in Finset.range n, ‖a i‖ * ‖b i‖ := by
        apply Finset.sum_congr rfl
        intro i _
        rw [norm_mul, RCLike.norm_conj]
    _ ≤ ∑ i in Finset.range n, (‖a i‖ ^ 2 + ‖b i‖ ^ 2) / 2 := by
        apply Finset.sum_le_sum
        intro i _
        nlinarith [sq_nonneg (‖a i‖ - ‖b i‖)]
    _ = (∑ i in Finset.range n, ‖a i‖ ^ 2 + ∑ i in Finset.range n, ‖b i‖ ^ 2) / 2 := by
        rw [← Finset.sum_add_distrib, Finset.sum_div]

theorem abs_sq_cast (z : Sample) :
    ((abs_sq z : Int) : ℝ) = ‖GaussianInt.toComplex z‖ ^ 2 := by
  rw [← Complex.normSq_eq_norm_sq, ← GaussianInt.intCast_real_norm]
  congr 1
  simp [abs_sq, Zsqrtd.norm]

theorem energy_cast (x : List Sample) :
    ((spec_energy x : Int) : ℝ) =
      ∑ i in Finset.range x.length, ‖GaussianInt.toComplex (x.getD i 0)‖ ^ 2 := by
  have e : x.map abs_sq = (List.range x.length).map (fun i => abs_sq (x.getD i 0)) := by
    apply List.ext_getElem?
    intro k
    rw [List.getElem?_map, List.getElem?_map]
    by_cases hk : k < x.length
    · rw [List.getElem?_range hk, List.getElem?_eq_getElem hk]
      simp [List.getD_eq_getElem?_getD, List.getElem?_eq_getElem hk]
    · rw [List.getElem?_eq_none (by omega), List.getElem?_eq_none (by simp; omega)]
      rfl
  unfold spec_energy
  rw [e, list_sum_eq_finset]
  push_cast
  exact Finset.sum_congr rfl (fun i _ => abs_sq_cast _)

theorem shifted_sum_le (g : Nat → ℝ) (hg : ∀ i, 0 ≤ g i) (N l : Nat) :
    ∑ i in Finset.range (N - l), g (i + l) ≤ ∑ i in Finset.range N, g i := by
  have e : ∑ i in Finset.range (N - l), g (i + l) = ∑ k in Finset.Ico l N, g k := by
    rw [Finset.sum_Ico_eq_sum_range]
    exact Finset.sum_congr rfl (fun i _ => by rw [Nat.add_comm])
  rw [e]
  apply Finset.sum_le_sum_of_subset_of_nonneg
  · intro k hk
    simp only [Finset.mem_Ico] at hk
    simp only [Finset.mem_range]
    omega
  · intro i _ _
    exact hg i

theorem head_sum_le (g : Nat → ℝ) (hg : ∀ i, 0 ≤ g i) (N l : Nat) :
    ∑ i in Finset.range (N - l), g i ≤ ∑ i in Finset.range N, g i := by
  apply Finset.sum_le_sum_of_subset_of_nonneg
  · exact Finset.range_mono (by omega)
  · intro i _ _
    exact hg i

/-- The self-correlation sum at any lag is no larger in modulus than the energy
of the sequence. -/
theorem abs_sq_self_crosscorr_le (x : List Sample) (L : Int) :
    abs_sq (spec_crosscorr x x L) ≤ spec_energy x ^ 2 := by
  have hg : ∀ i, 0 ≤ ‖GaussianInt.toComplex (x.getD i 0)‖ ^ 2 := fun i => sq_nonneg _
  have key : ‖GaussianInt.toComplex (spec_crosscorr x x L)‖ ≤ ((spec_energy x : Int) : ℝ) := by
    rw [energy_cast]
    unfold spec_crosscorr
    split_ifs
    · rw [list_sum_eq_finset, map_sum]
      simp only [map_mul, GaussianInt.toComplex_star]
      refine (norm_sum_mul_conj_le _ _ _).trans ?_
      have h1 := head_sum_le _ hg x.length L.toNat
      have h2 := shifted_sum_le _ hg x.length L.toNat
      linarith
    · rw [list_sum_eq_finset, map_sum]
      simp only [map_mul, GaussianInt.toComplex_star]
      refine (norm_sum_mul_conj_le _ _ _).trans ?_
      have h1 := head_sum_le _ hg x.length (-L).toNat
      have h2 := shifted_sum_le _ hg x.length (-L).toNat
      linarith
  have h0 : (0 : ℝ) ≤ ‖GaussianInt.toComplex (spec_crosscorr x x L)‖ := norm_nonneg _
  have hsq : ((abs_sq (spec_crosscorr x x L) : Int) : ℝ) ≤ ((spec_energy x ^ 2 : Int) : ℝ) := by
    rw [abs_sq_cast]
    push_cast
    exact pow_le_pow_left₀ h0 key 2
  exact_mod_cast hsq

/-- The self-correlation sum at lag `0` is the energy of the sequence. -/
theorem spec_crosscorr_zero_lag (x : List Sample) :
    spec_crosscorr x x 0 = ((spec_energy x : Int) : Sample) := by
  unfold spec_crosscorr spec_energy
  simp only [ge_iff_le, le_refl, if_true, Int.toNat_zero, Nat.sub_zero, Nat.add_zero]
  induction x with
  | nil => simp
  | cons a xs ih =>
    rw [List.length_cons, List.range_succ_eq_map, List.map_cons, List.map_map, List.sum_cons,
      List.map_cons, List.sum_cons]
    have e : (List.map ((fun i => (a :: xs).getD i 0 * star ((a :: xs).getD i 0)) ∘ Nat.succ)
        (List.range xs.length)) = List.map (fun i => xs.getD i 0 * star (xs.getD i 0))
        (List.range xs.length) := by
      apply List.map_congr_left
      intro i _
      simp
    rw [e, ih, Int.cast_add]
    congr 1
    ext
    · simp [abs_sq]
    · simp [abs_sq]; ring

/-- Self-correlation of at least two samples: for `N >= 2`, any number of
workers and a zero-filled buffer, the zero-lag cell `result[N-1]` ends as the
energy `Σ |x[i]|^2` and no cell has a larger modulus. -/
theorem self_correlation_peak (N : Nat) (x : List Sample) (T : Int) (hN : 2 ≤ N)
    (hx : x.length = N) (hT : 1 ≤ T) :
    ∃ r', calculate_crosscorrelation x x (List.replicate (2 * N - 1) 0) T = some r' ∧
      r'[N - 1]? = some ((spec_energy x : Int) : Sample) ∧
      ∀ k, k < 2 * N - 1 → abs_sq (r'.getD k 0) ≤ abs_sq (r'.getD (N - 1) 0) := by
  subst hx
  obtain ⟨r', hrun, _, hv⟩ := calculate_spec x x (List.replicate (2 * x.length - 1) 0) T
    (by omega) (le_refl _) (by simp; omega) hT
  have hmid : r'[x.length - 1]? = some ((spec_energy x : Int) : Sample) := by
    rw [hv, if_pos (by omega)]
    have e : (((x.length - 1 : Nat) : Int) - ((x.length : Int) - 1)) = 0 := by omega
    rw [e, spec_crosscorr_zero_lag]
  have hE : abs_sq ((spec_energy x : Int) : Sample) = spec_energy x ^ 2 := by
    simp [abs_sq]; ring
  refine ⟨r', hrun, hmid, ?_⟩
  intro k hk
  rw [List.getD_eq_getElem?_getD, List.getD_eq_getElem?_getD, hmid, hv k]
  simp only [Option.getD_some]
  rw [hE]
  by_cases h1 : (k : Int) - ((x.length : Int) - 1) < (x.length : Int) - 1
  · rw [if_pos h1]
    exact abs_sq_self_crosscorr_le x _
  · rw [if_neg h1, List.getElem?_replicate, if_pos hk]
    simp only [Option.getD_some]
    have : abs_sq 0 = 0 := by decide
    rw [this]
    exact sq_nonneg _

/-! ## Claims -/

/-- C3. For `N >= 1`, sequences `x`, `y` of length `N`, any initial buffer of
length `2N-1` and any worker count `T >= 1` (so every count from `1` to `2N-1`),
the engine completes and leaves the very buffer that the single-worker call
leaves on the same inputs. -/
theorem parallel_equals_sequential (N : Nat) (x y r : List Sample) (T : Int)
    (hN : 1 ≤ N) (hx : x.length = N) (hy : y.length = N) (hr : r.length = 2 * N - 1)
    (hT1 : 1 ≤ T) :
    ∃ r', calculate_crosscorrelation x y r T = some r' ∧
      calculate_crosscorrelation x y r 1 = some r' ∧ r'.length = 2 * N - 1 := by
  subst hx
  have hr' : (r.length : Int) = 2 * (x.length : Int) - 1 := by omega
  obtain ⟨r1, h1, hl1, hv1⟩ := calculate_spec x y r T hN (by omega) hr' hT1
  obtain ⟨r2, h2, hl2, hv2⟩ := calculate_spec x y r 1 hN (by omega) hr' (le_refl _)
  have e : r2 = r1 := List.ext_getElem? (fun k => by rw [hv1 k, hv2 k])
  exact ⟨r1, h1, by rw [h2, e], by rw [hl1, hr]⟩

/-- Witness for C3: three workers on sequences of length two. -/
theorem parallel_equals_sequential_witness :
    ∃ r', calculate_crosscorrelation [⟨1, 2⟩, ⟨3, 4⟩] [⟨5, 6⟩, ⟨7, 8⟩] [9, 9, 9] 3 = some r' ∧
      calculate_crosscorrelation [⟨1, 2⟩, ⟨3, 4⟩] [⟨5, 6⟩, ⟨7, 8⟩] [9, 9, 9] 1 = some r' ∧
      r'.length = 2 * 2 - 1 :=
  parallel_equals_sequential 2 [⟨1, 2⟩, ⟨3, 4⟩] [⟨5, 6⟩, ⟨7, 8⟩] [9, 9, 9] 3
    (by decide) (by decide) (by decide) (by decide) (by decide)

/-- C10. For `N >= 1`, sequences `x`, `y` of length `N`, a buffer of length
`2N-1` and at least one worker, the engine runs to completion, that is every
read of `x` and `y` and every write of `result` by every worker is inside its
vector. Every lag handed to a worker lies in `[-(N-1), N-1]`, its write index
`lag + N - 1` lies in `[0, 2N-2]`, and every index `i`, `i + lag`, `i - lag`
that its accumulation loop reads lies in `[0, N-1]`. -/
theorem index_safety (N : Nat) (x y r : List Sample) (T : Int)
    (hN : 1 ≤ N) (hx : x.length = N) (hy : y.length = N) (hr : r.length = 2 * N - 1)
    (hT : 1 ≤ T) :
    (calculate_crosscorrelation x y r T).isSome = true ∧
      ∀ t lag : Int, 0 ≤ t → t < T →
        (worker_range N (Int.tdiv (2 * (N : Int) - 1) T) T t).1 ≤ lag →
        lag < (worker_range N (Int.tdiv (2 * (N : Int) - 1) T) T t).2 →
        (-((N : Int) - 1) ≤ lag ∧ lag ≤ (N : Int) - 1) ∧
        (0 ≤ lag + (N : Int) - 1 ∧ lag + (N : Int) - 1 ≤ 2 * (N : Int) - 2) ∧
        ∀ i : Int, 0 ≤ i →
          (lag ≥ 0 → i < (N : Int) - lag →
            i ≤ (N : Int) - 1 ∧ 0 ≤ i + lag ∧ i + lag ≤ (N : Int) - 1) ∧
          (¬ lag ≥ 0 → i < (N : Int) + lag →
            0 ≤ i - lag ∧ i - lag ≤ (N : Int) - 1 ∧ i ≤ (N : Int) - 1) := by
  constructor
  · subst hx
    obtain ⟨r1, h1, _, _⟩ := calculate_spec x y r T hN (by omega) (by omega) hT
    simp [h1]
  · intro t lag ht0 ht1 h1 h2
    obtain ⟨hp0, hpT⟩ := tdiv_facts N T hN hT
    have hb := worker_range_bounds N (Int.tdiv (2 * (N : Int) - 1) T) T t (by omega) hp0
      (by linarith [hpT]) ht0 ht1
    obtain ⟨b1, _, b3⟩ := hb
    have hl : -((N : Int) - 1) ≤ lag ∧ lag ≤ (N : Int) - 1 := by
      split_ifs at b3 <;> omega
    refine ⟨hl, by omega, ?_⟩
    intro i hi
    exact ⟨fun _ _ => by omega, fun _ _ => by omega⟩

/-- Witness for C10: two workers on sequences of length two. -/
theorem index_safety_witness :
    (calculate_crosscorrelation [⟨1, 2⟩, ⟨3, 4⟩] [⟨5, 6⟩, ⟨7, 8⟩] [9, 9, 9] 2).isSome = true ∧
      ∀ t lag : Int, 0 ≤ t → t < 2 →
        (worker_range (2 : Nat) (Int.tdiv (2 * ((2 : Nat) : Int) - 1) 2) 2 t).1 ≤ lag →
        lag < (worker_range (2 : Nat) (Int.tdiv (2 * ((2 : Nat) : Int) - 1) 2) 2 t).2 →
        (-(((2 : Nat) : Int) - 1) ≤ lag ∧ lag ≤ ((2 : Nat) : Int) - 1) ∧
        (0 ≤ lag + ((2 : Nat) : Int) - 1 ∧ lag + ((2 : Nat) : Int) - 1 ≤ 2 * ((2 : Nat) : Int) - 2) ∧
        ∀ i : Int, 0 ≤ i →
          (lag ≥ 0 → i < ((2 : Nat) : Int) - lag →
            i ≤ ((2 : Nat) : Int) - 1 ∧ 0 ≤ i + lag ∧ i + lag ≤ ((2 : Nat) : Int) - 1) ∧
          (¬ lag ≥ 0 → i < ((2 : Nat) : Int) + lag →
            0 ≤ i - lag ∧ i - lag ≤ ((2 : Nat) : Int) - 1 ∧ i ≤ ((2 : Nat) : Int) - 1) :=
  index_safety 2 [⟨1, 2⟩, ⟨3, 4⟩] [⟨5, 6⟩, ⟨7, 8⟩] [9, 9, 9] 2
    (by decide) (by decide) (by decide) (by decide) (by decide)

/-- C6. For a file written from `M` pairs of 16-bit signed integers and a
window with `start_offset + count <= M`, the loader returns exactly `count`
samples, the `i`-th being pair `start_offset + i` with real part `I` and
imaginary part `Q`, unscaled; the window `start_offset = 0`, `count = M` gives
back every pair of the file. -/
theorem loader_round_trip (pairs : List (Int × Int))
    (hp : ∀ p ∈ pairs, is_int16 p.1 ∧ is_int16 p.2) (iq0 : List Sample) (start count : Nat)
    (h : start + count ≤ pairs.length) :
    (read_iq_samples (some (write_iq pairs)) iq0 start count).length = count ∧
    read_iq_samples (some (write_iq pairs)) iq0 start count =
      ((pairs.drop start).take count).map sample_of ∧
    (∀ i, i < count → ∃ p, pairs[start + i]? = some p ∧
      (read_iq_samples (some (write_iq pairs)) iq0 start count)[i]? = some ⟨p.1, p.2⟩) ∧
    (start = 0 → count = pairs.length →
      read_iq_samples (some (write_iq pairs)) iq0 start count = pairs.map sample_of) := by
  have e : read_iq_samples (some (write_iq pairs)) iq0 start count =
      ((pairs.drop start).take count).map sample_of := by
    rw [read_iq_samples_eq pairs hp, map_getD_range]
    have : count - (pairs.length - start) = 0 := by omega
    simp [this]
  refine ⟨?_, e, ?_, ?_⟩
  · rw [e]; simp; omega
  · intro i hi
    have hin : start + i < pairs.length := by omega
    refine ⟨pairs[start + i], List.getElem?_eq_getElem hin, ?_⟩
    rw [e, List.getElem?_map, List.getElem?_take, List.getElem?_drop,
      List.getElem?_eq_getElem hin]
    simp [hi, sample_of]
  · intro h0 hc
    rw [e, h0, hc]
    simp

/-- Witness for C6: the whole of a three-pair file, negative values included. -/
theorem loader_round_trip_witness :
    (read_iq_samples (some (write_iq [(1, -2), (-32768, 32767), (-1, 300)])) [] 0 3).length = 3 ∧
    read_iq_samples (some (write_iq [(1, -2), (-32768, 32767), (-1, 300)])) [] 0 3 =
      ((([(1, -2), (-32768, 32767), (-1, 300)] : List (Int × Int)).drop 0).take 3).map sample_of ∧
    (∀ i, i < 3 → ∃ p, ([(1, -2), (-32768, 32767), (-1, 300)] : List (Int × Int))[0 + i]? = some p ∧
      (read_iq_samples (some (write_iq [(1, -2), (-32768, 32767), (-1, 300)])) [] 0 3)[i]?
        = some ⟨p.1, p.2⟩) ∧
    (0 = 0 → 3 = ([(1, -2), (-32768, 32767), (-1, 300)] : List (Int × Int)).length →
      read_iq_samples (some (write_iq [(1, -2), (-32768, 32767), (-1, 300)])) [] 0 3 =
        ([(1, -2), (-32768, 32767), (-1, 300)] : List (Int × Int)).map sample_of) :=
  loader_round_trip [(1, -2), (-32768, 32767), (-1, 300)] (by decide) [] 0 3 (by decide)

/-- C7, as stated, fails: on a file of one pair a request for two samples
returns a two-entry sequence whose second entry does not come from the file. -/
theorem loader_truncation_counterexample :
    read_iq_samples (some (write_iq [(5, -7)])) [] 0 2 = [⟨5, -7⟩, ⟨0, 0⟩] ∧
    read_iq_samples (some (write_iq [(5, -7)])) [] 3 2 = [⟨0, 0⟩, ⟨0, 0⟩] := by
  decide

/-- C7, amended. For a file written from `M` pairs and a window with
`start_offset + count > M`, the loader signals nothing: it returns a sequence of
exactly `count` samples, the pairs that the file holds from `start_offset` on
(none when `start_offset >= M`) followed by zero samples. -/
theorem loader_truncation_zero_fill (pairs : List (Int × Int))
    (hp : ∀ p ∈ pairs, is_int16 p.1 ∧ is_int16 p.2) (iq0 : List Sample) (start count : Nat)
    (h : start + count > pairs.length) :
    (read_iq_samples (some (write_iq pairs)) iq0 start count).length = count ∧
    read_iq_samples (some (write_iq pairs)) iq0 start count =
      (pairs.drop start).map sample_of ++ List.replicate (count - (pairs.length - start)) 0 := by
  have e : read_iq_samples (some (write_iq pairs)) iq0 start count =
      (pairs.drop start).map sample_of ++ List.replicate (count - (pairs.length - start)) 0 := by
    rw [read_iq_samples_eq pairs hp, map_getD_range]
    have ht : (pairs.drop start).take count = pairs.drop start :=
      List.take_of_length_le (by simp; omega)
    rw [ht]
    rfl
  refine ⟨?_, e⟩
  rw [e]; simp; omega

/-- Witness for the amended C7: one pair in the file, two requested. -/
theorem loader_truncation_zero_fill_witness :
    (read_iq_samples (some (write_iq [(5, -7)])) [] 0 2).length = 2 ∧
    read_iq_samples (some (write_iq [(5, -7)])) [] 0 2 =
      (([(5, -7)] : List (Int × Int)).drop 0).map sample_of ++
        List.replicate (2 - (([(5, -7)] : List (Int × Int)).length - 0)) 0 :=
  loader_truncation_zero_fill [(5, -7)] (by decide) [] 0 2 (by decide)

/-- C8, as stated, fails: with `|x| = 2` and `|y| = 3` the engine completes
and fills the buffer, and with `worker_count = -1` it completes and hands the
buffer back as it was; neither call is rejected. -/
theorem engine_validation_counterexample :
    calculate_crosscorrelation [⟨1, 0⟩, ⟨1, 0⟩] [⟨1, 0⟩, ⟨1, 0⟩, ⟨1, 0⟩] [0, 0, 0] 1 =
      some [⟨1, 0⟩, ⟨2, 0⟩, 0] ∧
    calculate_crosscorrelation [⟨1, 0⟩, ⟨1, 0⟩] [⟨1, 0⟩, ⟨1, 0⟩] [7, 7, 7] (-1) =
      some [7, 7, 7] := by
  decide

/-- C8, amended. The engine validates nothing and signals no error. With a
negative worker count it starts no worker and returns with the buffer
untouched, whatever the sequences are. With `|y| > |x| >= 1`, a buffer of
`2|x|-1` cells and at least one worker it runs to completion and leaves the
buffer it leaves for `x` and the first `|x|` entries of `y`. -/
theorem engine_performs_no_validation (x1 y1 r1 x y r : List Sample) (Tneg T : Int)
    (hneg : Tneg < 0) (hN : 1 ≤ x.length) (hxy : x.length < y.length)
    (hr : r.length = 2 * x.length - 1) (hT : 1 ≤ T) :
    calculate_crosscorrelation x1 y1 r1 Tneg = some r1 ∧
    ∃ r', calculate_crosscorrelation x y r T = some r' ∧
      calculate_crosscorrelation x (y.take x.length) r T = some r' ∧
      r'.length = 2 * x.length - 1 := by
  constructor
  · unfold calculate_crosscorrelation
    have h0 : Tneg ≠ 0 := by omega
    simp only [h0, if_false]
    exact forLoop_empty _ 0 Tneg r1 (by omega)
  · have hr' : (r.length : Int) = 2 * (x.length : Int) - 1 := by omega
    obtain ⟨ra, ha, hla, hva⟩ := calculate_spec x y r T hN (by omega) hr' hT
    obtain ⟨rb, hb, hlb, hvb⟩ := calculate_spec x (y.take x.length) r T hN
      (by simp; omega) hr' hT
    have e : rb = ra := List.ext_getElem? (fun k => by
      rw [hva k, hvb k, spec_crosscorr_take])
    exact ⟨ra, ha, by rw [hb, e], by rw [hla, hr]⟩

/-- Witness for the amended C8. -/
theorem engine_performs_no_validation_witness :
    calculate_crosscorrelation [⟨1, 0⟩] [] [7] (-2) = some [7] ∧
    ∃ r', calculate_crosscorrelation [⟨1, 0⟩, ⟨1, 0⟩] [⟨1, 0⟩, ⟨1, 0⟩, ⟨1, 0⟩] [0, 0, 0] 2 =
        some r' ∧
      calculate_crosscorrelation [⟨1, 0⟩, ⟨1, 0⟩]
        (([⟨1, 0⟩, ⟨1, 0⟩, ⟨1, 0⟩] : List Sample).take ([⟨1, 0⟩, ⟨1, 0⟩] : List Sample).length)
        [0, 0, 0] 2 = some r' ∧
      r'.length = 2 * ([⟨1, 0⟩, ⟨1, 0⟩] : List Sample).length - 1 :=
  engine_performs_no_validation [⟨1, 0⟩] [] [7] [⟨1, 0⟩, ⟨1, 0⟩] [⟨1, 0⟩, ⟨1, 0⟩, ⟨1, 0⟩]
    [0, 0, 0] (-2) 2 (by decide) (by decide) (by decide) (by decide) (by decide)

/-- C1 at a failing input. With `N = 2` and one or two workers the cell of
lag `1`, `result[2]`, still holds the initial `0` after the call, whereas the
correlation sum of lag `1` is `x[0] * conj(y[1]) = 23 + 6i`; the cells of the
lags `-1` and `0` hold their sums. -/
theorem last_lag_not_computed :
    calculate_crosscorrelation [⟨1, 2⟩, ⟨3, 4⟩] [⟨5, 6⟩, ⟨7, 8⟩] [0, 0, 0] 1 =
      some [⟨39, 2⟩, ⟨70, 8⟩, 0] ∧
    calculate_crosscorrelation [⟨1, 2⟩, ⟨3, 4⟩] [⟨5, 6⟩, ⟨7, 8⟩] [0, 0, 0] 2 =
      some [⟨39, 2⟩, ⟨70, 8⟩, 0] ∧
    spec_crosscorr [⟨1, 2⟩, ⟨3, 4⟩] [⟨5, 6⟩, ⟨7, 8⟩] (-1) = ⟨39, 2⟩ ∧
    spec_crosscorr [⟨1, 2⟩, ⟨3, 4⟩] [⟨5, 6⟩, ⟨7, 8⟩] 0 = ⟨70, 8⟩ ∧
    spec_crosscorr [⟨1, 2⟩, ⟨3, 4⟩] [⟨5, 6⟩, ⟨7, 8⟩] 1 = ⟨23, 6⟩ := by
  decide

/-- C2 at a failing input. For `N = 2` (output indices `0, 1, 2`) and two
workers, index `0` is in the range of worker `0` only and index `1` in the
range of worker `1` only, but index `2`, the lag `N-1`, is in no range; for
`N = 1` and one worker the single index `0` is in no range. -/
theorem last_index_not_covered :
    covering_workers 2 2 0 = [0] ∧ covering_workers 2 2 1 = [1] ∧
    covering_workers 2 2 2 = [] ∧ covering_workers 1 1 0 = [] := by
  decide

/-- C5 at a failing input, the example `N = 2`, `d = 1` of the specification:
the buffer stays all zero, so the reported peak entry is `0` (modulus `0`, not
`1`) and the shift is `-1`; for `N = 3`, `d = 1` the peak entry is `1` and the
shift is `+1`. -/
theorem pure_delay_lost_at_last_lag :
    calculate_crosscorrelation (impulse 2 0) (impulse 2 1) (List.replicate 3 0) 1 =
      some [0, 0, 0] ∧
    correlate_and_find_peak (impulse 2 0) (impulse 2 1) 1 = some (-1, 0) ∧
    correlate_and_find_peak (impulse 2 0) (impulse 2 1) 3 = some (-1, 0) ∧
    correlate_and_find_peak (impulse 3 0) (impulse 3 1) 1 = some (1, 1) := by
  decide

/-- C9 at a failing input. For `N = 1`, `x = [3 + 4i]`, with one worker or
with eight, the zero-lag cell `result[0]` is still `0` after the call, whereas
the energy of `x` is `25`. -/
theorem self_correlation_lost_for_single_sample :
    calculate_crosscorrelation [⟨3, 4⟩] [⟨3, 4⟩] [0] 1 = some [0] ∧
    calculate_crosscorrelation [⟨3, 4⟩] [⟨3, 4⟩] [0] 8 = some [0] ∧
    spec_energy [⟨3, 4⟩] = 25 := by
  decide

end CrossCorrelation
